import Mathlib

/-!
Verification development for the MOE bandit UCB1 arm-allocation policy
(src/moe/bandit/ucb1.py).

The historical data is embedded as an association list of
(arm name, SampleArm) pairs, in the iteration order of the Python dict;
wins and losses are real numbers, trial counts are naturals.  Fallible
operations (the Python functions that raise ValueError on empty input)
return Except String.  Real-number scores use Mathlib reals, so the
winning-set computation on scores is noncomputable; the structural parts
(unsampled-arm detection, counting) stay computable.
-/

open Classical in
/-- One arm's observed outcomes: wins, losses, and total trial count
(moe.bandit.data_containers.SampleArm as used by ucb1.py). -/
structure SampleArm where
  win : ℝ
  loss : ℝ
  total : ℕ

/-- The arm-name to SampleArm mapping of a HistoricalInfo, as an association
list in dict-iteration order. -/
abbrev ArmsSampled := List (String × SampleArm)

/-- Embedding of the set-of-unsampled-arm-names computation
(UCB1.get_unsampled_arm_names): the frozenset of names whose arm has
total == 0. -/
def unsampledF (arms_sampled : ArmsSampled) : Finset String :=
  ((arms_sampled.filter (fun p => p.2.total == 0)).map Prod.fst).toFinset

/-- UCB1.get_unsampled_arm_names: raises ValueError on an empty mapping,
otherwise returns the frozenset of unsampled arm names. -/
def get_unsampled_arm_names (arms_sampled : ArmsSampled) :
    Except String (Finset String) :=
  if arms_sampled.isEmpty then .error ("arms_sampled is empty!")
  else .ok (unsampledF arms_sampled)

/-- The value number_sampled in UCB1.get_winning_arm_names: the sum of
total over every arm sampled. -/
def number_sampled (arms_sampled : ArmsSampled) : ℕ :=
  (arms_sampled.map (fun p => p.2.total)).sum

/-- The avg_payoff expression in UCB1.get_winning_arm_names:
(win - loss) / total when total > 0, and 0 otherwise. -/
noncomputable def avg_payoff (arm : SampleArm) : ℝ :=
  if arm.total > 0 then (arm.win - arm.loss) / (arm.total : ℝ) else 0

/-- The ucb_payoff expression in UCB1.get_winning_arm_names, exactly as the
code computes it: avg_payoff + sqrt(2.0 * log(arm.total) / number_sampled).
The code's own docstring instead states mu + sqrt(2 ln n / n_j); the two
disagree (see the C1 theorem below). -/
noncomputable def ucb_payoff (arm : SampleArm) (n : ℕ) : ℝ :=
  avg_payoff arm + Real.sqrt (2.0 * Real.log (arm.total : ℝ) / (n : ℝ))

/-- The list ucb_payoff_arm_name_list built by UCB1.get_winning_arm_names:
one (ucb payoff, arm name) pair per arm, in iteration order. -/
noncomputable def ucb_payoff_arm_name_list (arms_sampled : ArmsSampled) :
    List (ℝ × String) :=
  arms_sampled.map
    (fun p => (ucb_payoff p.2 (number_sampled arms_sampled), p.1))

/-- Maximum of a list of reals (0 on the empty list, which the guarded code
never reaches). -/
noncomputable def listMaxR : List ℝ → ℝ
  | [] => 0
  | x :: xs => xs.foldl max x

/-- The value best_payoff in UCB1.get_winning_arm_names.  Python's max over
(float, str) tuples is lexicographic, and only the first component of the
maximum is used afterwards; that first component equals the maximum of the
first components, which is what we take. -/
noncomputable def best_payoff (arms_sampled : ArmsSampled) : ℝ :=
  listMaxR ((ucb_payoff_arm_name_list arms_sampled).map Prod.fst)

open Classical in
/-- The list winning_arm_payoff_name_list in UCB1.get_winning_arm_names:
the (payoff, name) pairs whose payoff equals best_payoff exactly. -/
noncomputable def winning_arm_payoff_name_list (arms_sampled : ArmsSampled) :
    List (ℝ × String) :=
  (ucb_payoff_arm_name_list arms_sampled).filter
    (fun p => decide (p.1 = best_payoff arms_sampled))

/-- The frozenset of winning arm names produced by the confidence-bound
branch of UCB1.get_winning_arm_names (extraction of the name components of
winning_arm_payoff_name_list). -/
noncomputable def scoredW (arms_sampled : ArmsSampled) : Finset String :=
  ((winning_arm_payoff_name_list arms_sampled).map Prod.snd).toFinset

/-- UCB1.get_winning_arm_names: raises on empty input; returns the
unsampled arm names when any arm has total == 0, otherwise the arms tied
for the best UCB payoff. -/
noncomputable def get_winning_arm_names (arms_sampled : ArmsSampled) :
    Except String (Finset String) :=
  if arms_sampled.isEmpty then .error ("arms_sampled is empty!")
  else
    match get_unsampled_arm_names arms_sampled with
    | .error e => .error e
    | .ok unsampled_arm_names =>
      if unsampled_arm_names ≠ ∅ then .ok unsampled_arm_names
      else .ok (scoredW arms_sampled)

/-- The winning set for a non-empty mapping: the unsampled arms when any
exist, otherwise the arms tied for the best UCB payoff.  For non-empty
input, get_winning_arm_names returns exactly this set (winningSet_spec). -/
noncomputable def winningSet (arms_sampled : ArmsSampled) : Finset String :=
  if unsampledF arms_sampled ≠ ∅ then unsampledF arms_sampled
  else scoredW arms_sampled

/-- Modelled from the spec: moe.bandit.utils.get_equal_arm_allocations is
not under src/.  Spec 4.3 step 5 and 4.4: produce a mapping that covers
every arm of the input, giving each winning arm probability
1 / |winning set| and every other arm probability 0. -/
noncomputable def get_equal_arm_allocations (arms_sampled : ArmsSampled)
    (winning_arm_names : Finset String) : List (String × ℝ) :=
  arms_sampled.map
    (fun p =>
      (p.1,
       if p.1 ∈ winning_arm_names
       then 1 / (winning_arm_names.card : ℝ) else 0))

/-- UCB1.allocate_arms: raises ValueError on an empty HistoricalInfo,
otherwise allocates equally among the winning arms. -/
noncomputable def allocate_arms (arms_sampled : ArmsSampled) :
    Except String (List (String × ℝ)) :=
  if arms_sampled.isEmpty then .error ("sample_arms are empty!")
  else
    match get_winning_arm_names arms_sampled with
    | .error e => .error e
    | .ok winning_arm_names =>
      .ok (get_equal_arm_allocations arms_sampled winning_arm_names)

/-- The per-arm score as the specification (and the code's own docstring)
states it: mu_j + sqrt(2 ln n / total_j), where
mu_j = (win_j - loss_j) / total_j and n is the overall trial count. -/
noncomputable def spec_score (arm : SampleArm) (n : ℕ) : ℝ :=
  (arm.win - arm.loss) / (arm.total : ℝ) +
    Real.sqrt (2 * Real.log (n : ℝ) / (arm.total : ℝ))

/-! Helper lemmas about list maxima. -/

theorem le_foldl_max (l : List ℝ) (a : ℝ) : a ≤ l.foldl max a := by
  induction l generalizing a with
  | nil => exact le_refl a
  | cons x xs ih =>
    exact le_trans (le_max_left a x) (ih (max a x))

theorem le_foldl_max_of_mem {l : List ℝ} {x : ℝ} (a : ℝ) (hx : x ∈ l) :
    x ≤ l.foldl max a := by
  induction l generalizing a with
  | nil => cases hx
  | cons y ys ih =>
    rcases List.mem_cons.mp hx with rfl | hmem
    · exact le_trans (le_max_right a x) (le_foldl_max ys (max a x))
    · exact ih (max a y) hmem

theorem foldl_max_eq_or_mem (l : List ℝ) (a : ℝ) :
    l.foldl max a = a ∨ l.foldl max a ∈ l := by
  induction l generalizing a with
  | nil => exact Or.inl rfl
  | cons y ys ih =>
    rcases ih (max a y) with heq | hmem
    · rcases max_choice a y with hm | hm
      · exact Or.inl (by rw [List.foldl_cons, heq, hm])
      · exact Or.inr (by rw [List.foldl_cons, heq, hm]; exact List.mem_cons_self y ys)
    · exact Or.inr (List.mem_cons_of_mem y hmem)

theorem le_listMaxR {l : List ℝ} {x : ℝ} (hx : x ∈ l) : x ≤ listMaxR l := by
  cases l with
  | nil => cases hx
  | cons y ys =>
    rcases List.mem_cons.mp hx with rfl | hmem
    · exact le_foldl_max ys x
    · exact le_foldl_max_of_mem y hmem

theorem listMaxR_mem {l : List ℝ} (h : l ≠ []) : listMaxR l ∈ l := by
  cases l with
  | nil => exact absurd rfl h
  | cons y ys =>
    have hdef : listMaxR (y :: ys) = ys.foldl max y := rfl
    rw [hdef]
    rcases foldl_max_eq_or_mem ys y with heq | hmem
    · rw [heq]
      exact List.mem_cons_self y ys
    · exact List.mem_cons_of_mem y hmem

/-! Membership characterizations of the two winning-set computations. -/

theorem mem_unsampledF {arms : ArmsSampled} {name : String} :
    name ∈ unsampledF arms ↔ ∃ arm, (name, arm) ∈ arms ∧ arm.total = 0 := by
  simp only [unsampledF, List.mem_toFinset, List.mem_map, List.mem_filter,
    beq_iff_eq]
  constructor
  · rintro ⟨⟨n, a⟩, ⟨hmem, htot⟩, rfl⟩
    exact ⟨a, hmem, htot⟩
  · rintro ⟨a, hmem, htot⟩
    exact ⟨(name, a), ⟨hmem, htot⟩, rfl⟩

theorem mem_ucb_list {arms : ArmsSampled} {r : ℝ} {name : String} :
    (r, name) ∈ ucb_payoff_arm_name_list arms ↔
      ∃ arm, (name, arm) ∈ arms ∧ r = ucb_payoff arm (number_sampled arms) := by
  simp only [ucb_payoff_arm_name_list, List.mem_map, Prod.mk.injEq]
  constructor
  · rintro ⟨⟨n, a⟩, hmem, hr, rfl⟩
    exact ⟨a, hmem, hr.symm⟩
  · rintro ⟨a, hmem, hr⟩
    exact ⟨(name, a), hmem, hr.symm, rfl⟩

theorem mem_scoredW {arms : ArmsSampled} {name : String} :
    name ∈ scoredW arms ↔
      ∃ arm, (name, arm) ∈ arms ∧
        ucb_payoff arm (number_sampled arms) = best_payoff arms := by
  simp only [scoredW, winning_arm_payoff_name_list, List.mem_toFinset,
    List.mem_map, List.mem_filter, decide_eq_true_eq]
  constructor
  · rintro ⟨⟨r, n⟩, ⟨hmem, hbest⟩, rfl⟩
    rcases mem_ucb_list.mp hmem with ⟨a, ha, hr⟩
    exact ⟨a, ha, by rw [← hr]; exact hbest⟩
  · rintro ⟨a, hmem, hbest⟩
    exact ⟨(ucb_payoff a (number_sampled arms), name),
      ⟨mem_ucb_list.mpr ⟨a, hmem, rfl⟩, hbest⟩, rfl⟩

theorem ucb_le_best {arms : ArmsSampled} {name : String} {arm : SampleArm}
    (hmem : (name, arm) ∈ arms) :
    ucb_payoff arm (number_sampled arms) ≤ best_payoff arms := by
  apply le_listMaxR
  simp only [List.mem_map]
  exact ⟨(ucb_payoff arm (number_sampled arms), name),
    mem_ucb_list.mpr ⟨arm, hmem, rfl⟩, rfl⟩

theorem best_attained {arms : ArmsSampled} (h : arms ≠ []) :
    ∃ p ∈ arms, ucb_payoff p.2 (number_sampled arms) = best_payoff arms := by
  have hne : (ucb_payoff_arm_name_list arms).map Prod.fst ≠ [] := by
    simp [ucb_payoff_arm_name_list, h]
  have hmem := listMaxR_mem hne
  rw [List.mem_map] at hmem
  rcases hmem with ⟨⟨r, name⟩, hmem, hfst⟩
  rcases mem_ucb_list.mp hmem with ⟨a, ha, hr⟩
  exact ⟨(name, a), ha, by rw [← hr]; exact hfst⟩

/-! Branch-reduction lemmas for the fallible operations. -/

theorem isEmpty_false_of_ne_nil {α : Type} {l : List α} (h : l ≠ []) :
    l.isEmpty = false := by
  cases l with
  | nil => exact absurd rfl h
  | cons x xs => rfl

theorem get_winning_eq {arms : ArmsSampled} (h : arms ≠ []) :
    get_winning_arm_names arms = .ok (winningSet arms) := by
  have hE : arms.isEmpty = false := isEmpty_false_of_ne_nil h
  rw [get_winning_arm_names, get_unsampled_arm_names, hE]
  simp only [Bool.false_eq_true, if_false]
  rw [winningSet]
  by_cases hu : unsampledF arms ≠ ∅
  · rw [if_pos hu, if_pos hu]
  · rw [if_neg hu, if_neg hu]

theorem allocate_eq {arms : ArmsSampled} (h : arms ≠ []) :
    allocate_arms arms =
      .ok (get_equal_arm_allocations arms (winningSet arms)) := by
  have hE : arms.isEmpty = false := isEmpty_false_of_ne_nil h
  rw [allocate_arms, hE]
  simp only [Bool.false_eq_true, if_false]
  rw [get_winning_eq h]

theorem allocate_empty : allocate_arms [] = .error ("sample_arms are empty!") :=
  rfl

/-! Properties of the winning set. -/

theorem winningSet_nonempty {arms : ArmsSampled} (h : arms ≠ []) :
    (winningSet arms).Nonempty := by
  rw [winningSet]
  by_cases hu : unsampledF arms ≠ ∅
  · rw [if_pos hu]
    exact Finset.nonempty_iff_ne_empty.mpr hu
  · rw [if_neg hu]
    rcases best_attained h with ⟨⟨name, arm⟩, hmem, hbest⟩
    exact ⟨name, mem_scoredW.mpr ⟨arm, hmem, hbest⟩⟩

theorem winningSet_subset {arms : ArmsSampled} :
    winningSet arms ⊆ (arms.map Prod.fst).toFinset := by
  intro name hname
  rw [winningSet] at hname
  rw [List.mem_toFinset, List.mem_map]
  by_cases hu : unsampledF arms ≠ ∅
  · rw [if_pos hu] at hname
    rcases mem_unsampledF.mp hname with ⟨arm, hmem, _⟩
    exact ⟨(name, arm), hmem, rfl⟩
  · rw [if_neg hu] at hname
    rcases mem_scoredW.mp hname with ⟨arm, hmem, _⟩
    exact ⟨(name, arm), hmem, rfl⟩

/-! Unique keys: in a dict no name maps to two different arms. -/

theorem nodup_key_eq {arms : ArmsSampled} {name : String} {a b : SampleArm}
    (hnd : (arms.map Prod.fst).Nodup)
    (ha : (name, a) ∈ arms) (hb : (name, b) ∈ arms) : a = b := by
  induction arms with
  | nil => cases ha
  | cons p t ih =>
    rw [List.map_cons, List.nodup_cons] at hnd
    rcases List.mem_cons.mp ha with rfl | hat
    · rcases List.mem_cons.mp hb with heq | hbt
      · exact congrArg Prod.snd heq.symm
      · exact absurd (List.mem_map.mpr ⟨(name, b), hbt, rfl⟩) hnd.1
    · rcases List.mem_cons.mp hb with rfl | hbt
      · exact absurd (List.mem_map.mpr ⟨(name, a), hat, rfl⟩) hnd.1
      · exact ih hnd.2 hat hbt

theorem mem_unsampledF_nodup {arms : ArmsSampled} {name : String}
    {arm : SampleArm} (hnd : (arms.map Prod.fst).Nodup)
    (hmem : (name, arm) ∈ arms) :
    name ∈ unsampledF arms ↔ arm.total = 0 := by
  rw [mem_unsampledF]
  constructor
  · rintro ⟨a, ha, htot⟩
    rw [nodup_key_eq hnd hmem ha]
    exact htot
  · intro htot
    exact ⟨arm, hmem, htot⟩

theorem mem_scoredW_nodup {arms : ArmsSampled} {name : String}
    {arm : SampleArm} (hnd : (arms.map Prod.fst).Nodup)
    (hmem : (name, arm) ∈ arms) :
    name ∈ scoredW arms ↔
      ucb_payoff arm (number_sampled arms) = best_payoff arms := by
  rw [mem_scoredW]
  constructor
  · rintro ⟨a, ha, hbest⟩
    rw [nodup_key_eq hnd hmem ha]
    exact hbest
  · intro hbest
    exact ⟨arm, hmem, hbest⟩

/-! Properties of the (spec-modelled) equal-allocation helper. -/

theorem alloc_keys (arms : ArmsSampled) (W : Finset String) :
    (get_equal_arm_allocations arms W).map Prod.fst = arms.map Prod.fst := by
  rw [get_equal_arm_allocations, List.map_map]
  rfl

theorem alloc_values {arms : ArmsSampled} {W : Finset String} {q : String × ℝ}
    (hq : q ∈ get_equal_arm_allocations arms W) :
    q.2 = if q.1 ∈ W then 1 / (W.card : ℝ) else 0 := by
  rw [get_equal_arm_allocations, List.mem_map] at hq
  rcases hq with ⟨p, _, rfl⟩
  rfl

theorem alloc_lookup (arms : ArmsSampled) (W : Finset String) (name : String) :
    (get_equal_arm_allocations arms W).lookup name =
      if name ∈ arms.map Prod.fst
      then some (if name ∈ W then 1 / (W.card : ℝ) else 0) else none := by
  induction arms with
  | nil => rfl
  | cons p t ih =>
    by_cases hc : name = p.1
    · have hbeq : (name == p.1) = true := beq_iff_eq.mpr hc
      have hmem : name ∈ (p :: t).map Prod.fst := by
        rw [List.map_cons, hc]
        exact List.mem_cons_self p.1 (t.map Prod.fst)
      rw [if_pos hmem]
      simp only [get_equal_arm_allocations, List.map_cons, List.lookup_cons,
        hbeq, hc, beq_self_eq_true]
    · have hbeq : (name == p.1) = false := beq_eq_false_iff_ne.mpr hc
      simp only [get_equal_arm_allocations, List.map_cons, List.lookup_cons,
        hbeq]
      rw [get_equal_arm_allocations] at ih
      rw [ih]
      by_cases hmem : name ∈ t.map Prod.fst
      · rw [if_pos hmem, if_pos (List.mem_cons_of_mem p.1 hmem)]
      · rw [if_neg hmem, if_neg (fun hcon => by
          rcases List.mem_cons.mp hcon with heq | hmt
          · exact hc heq
          · exact hmem hmt)]

theorem alloc_sum {arms : ArmsSampled} {W : Finset String}
    (hnd : (arms.map Prod.fst).Nodup)
    (hsub : W ⊆ (arms.map Prod.fst).toFinset) (hne : W.Nonempty) :
    ((get_equal_arm_allocations arms W).map Prod.snd).sum = 1 := by
  have h1 : (get_equal_arm_allocations arms W).map Prod.snd =
      (arms.map Prod.fst).map
        (fun name => if name ∈ W then 1 / (W.card : ℝ) else 0) := by
    rw [get_equal_arm_allocations, List.map_map, List.map_map]
    rfl
  rw [h1, ← List.sum_toFinset _ hnd, Finset.sum_ite_mem,
    Finset.inter_eq_right.mpr hsub, Finset.sum_const, nsmul_eq_mul]
  have hcard : (W.card : ℝ) ≠ 0 := by
    exact_mod_cast Nat.pos_iff_ne_zero.mp (Finset.card_pos.mpr hne)
  field_simp

theorem unsampledF_card {arms : ArmsSampled}
    (hnd : (arms.map Prod.fst).Nodup) :
    (unsampledF arms).card =
      (arms.filter (fun p => p.2.total == 0)).length := by
  rw [unsampledF, List.toFinset_card_of_nodup, List.length_map]
  exact ((List.filter_sublist arms).map Prod.fst).nodup hnd

/-! Facts feeding the safety claim: when the scoring branch is reached,
every divisor and logarithm argument is at least 1. -/

theorem unsampledF_eq_empty_iff {arms : ArmsSampled} :
    unsampledF arms = ∅ ↔ ∀ p ∈ arms, 1 ≤ p.2.total := by
  rw [Finset.eq_empty_iff_forall_not_mem]
  constructor
  · intro h p hp
    by_contra hlt
    have h0 : p.2.total = 0 := by omega
    exact h p.1 (mem_unsampledF.mpr ⟨p.2, by rwa [Prod.mk.eta], h0⟩)
  · intro h name hm
    rcases mem_unsampledF.mp hm with ⟨a, ha, h0⟩
    have h1 : 1 ≤ a.total := h (name, a) ha
    omega

theorem number_sampled_pos {arms : ArmsSampled} (h : arms ≠ [])
    (ht : ∀ p ∈ arms, 1 ≤ p.2.total) : 1 ≤ number_sampled arms := by
  cases arms with
  | nil => exact absurd rfl h
  | cons p t =>
    have h1 : 1 ≤ p.2.total := ht p (List.mem_cons_self p t)
    have h2 : number_sampled (p :: t) = p.2.total + number_sampled t := by
      rw [number_sampled, List.map_cons, List.sum_cons]
      rfl
    omega

/-! Shape of the allocation when unsampled arms exist. -/

theorem alloc_unsampled_shape {arms : ArmsSampled}
    (hnd : (arms.map Prod.fst).Nodup) (hk : unsampledF arms ≠ ∅) :
    get_equal_arm_allocations arms (winningSet arms) =
      arms.map (fun p =>
        (p.1,
         if p.2.total = 0
         then 1 / (((arms.filter (fun q => q.2.total == 0)).length : ℝ))
         else 0)) := by
  rw [winningSet, if_pos hk, get_equal_arm_allocations]
  apply List.map_congr_left
  intro p hp
  have hiff : p.1 ∈ unsampledF arms ↔ p.2.total = 0 :=
    mem_unsampledF_nodup hnd (by rwa [Prod.mk.eta])
  by_cases h0 : p.2.total = 0
  · rw [if_pos (hiff.mpr h0), if_pos h0, unsampledF_card hnd]
  · rw [if_neg (fun hc => h0 (hiff.mp hc)), if_neg h0]

/-! Invariance of every intermediate value under reordering of the
mapping (the Python dict has no guaranteed iteration order). -/

theorem number_sampled_perm {arms1 arms2 : ArmsSampled}
    (h : arms1.Perm arms2) :
    number_sampled arms1 = number_sampled arms2 := by
  rw [number_sampled, number_sampled]
  exact (h.map (fun p => p.2.total)).sum_eq

theorem unsampledF_perm {arms1 arms2 : ArmsSampled} (h : arms1.Perm arms2) :
    unsampledF arms1 = unsampledF arms2 :=
  List.toFinset_eq_of_perm _ _ ((h.filter _).map _)

theorem listMaxR_perm {l1 l2 : List ℝ} (hne : l1 ≠ []) (h : l1.Perm l2) :
    listMaxR l1 = listMaxR l2 := by
  have hne2 : l2 ≠ [] := by
    intro hc
    rw [hc] at h
    exact hne h.eq_nil
  apply le_antisymm
  · exact le_listMaxR (h.mem_iff.mp (listMaxR_mem hne))
  · exact le_listMaxR (h.mem_iff.mpr (listMaxR_mem hne2))

theorem best_payoff_perm {arms1 arms2 : ArmsSampled} (hne : arms1 ≠ [])
    (h : arms1.Perm arms2) : best_payoff arms1 = best_payoff arms2 := by
  have hn : number_sampled arms2 = number_sampled arms1 :=
    (number_sampled_perm h).symm
  rw [best_payoff, best_payoff, ucb_payoff_arm_name_list,
    ucb_payoff_arm_name_list, hn]
  apply listMaxR_perm
  · simp [hne]
  · exact (h.map _).map _

theorem scoredW_perm {arms1 arms2 : ArmsSampled} (hne : arms1 ≠ [])
    (h : arms1.Perm arms2) : scoredW arms1 = scoredW arms2 := by
  have hn := number_sampled_perm h
  have hb := best_payoff_perm hne h
  ext name
  rw [mem_scoredW, mem_scoredW, ← hn, ← hb]
  constructor
  · rintro ⟨a, ha, hbest⟩
    exact ⟨a, h.mem_iff.mp ha, hbest⟩
  · rintro ⟨a, ha, hbest⟩
    exact ⟨a, h.mem_iff.mpr ha, hbest⟩

theorem winningSet_perm {arms1 arms2 : ArmsSampled} (hne : arms1 ≠ [])
    (h : arms1.Perm arms2) : winningSet arms1 = winningSet arms2 := by
  rw [winningSet, winningSet, unsampledF_perm h, scoredW_perm hne h]

/-- C1: the claim states that the score of arm j is
mu_j + sqrt(2 ln(n) / total_j).  The code instead computes
mu_j + sqrt(2 ln(total_j) / n), swapping the two arguments, and so
contradicts both the claim and its own docstring.  Witnessed at the
history of two arms each with (win 0, loss 0, total 1): there n = 2, the
code gives every arm the score 0 + sqrt(2 ln 1 / 2) = 0, while the claimed
formula gives 0 + sqrt(2 ln 2 / 1) = sqrt(2 ln 2) > 0. -/
theorem C1_score_formula_deviates :
    number_sampled [("a", ⟨0, 0, 1⟩), ("b", ⟨0, 0, 1⟩)] = 2 ∧
    ucb_payoff ⟨0, 0, 1⟩ 2 = 0 ∧
    spec_score ⟨0, 0, 1⟩ 2 = Real.sqrt (2 * Real.log 2) ∧
    ucb_payoff ⟨0, 0, 1⟩ 2 ≠ spec_score ⟨0, 0, 1⟩ 2 := by
  have h2 : ucb_payoff (⟨0, 0, 1⟩ : SampleArm) 2 = 0 := by
    simp [ucb_payoff, avg_payoff]
  have h3 : spec_score (⟨0, 0, 1⟩ : SampleArm) 2 =
      Real.sqrt (2 * Real.log 2) := by
    simp [spec_score]
  refine ⟨rfl, h2, h3, ?_⟩
  rw [h2, h3]
  have hpos : 0 < Real.sqrt (2 * Real.log 2) := by
    apply Real.sqrt_pos.mpr
    have hl := Real.log_pos one_lt_two
    linarith
  exact fun hc => absurd hc.symm (ne_of_gt hpos)

/-- C3: allocate_arms fails exactly on the empty mapping, with the single
empty-history error, and returns an allocation for every non-empty
mapping.  The embedding is a pure function of the held state, which the
code never mutates. -/
theorem C3_error_iff_empty (arms : ArmsSampled) :
    (allocate_arms arms = .error ("sample_arms are empty!") ↔ arms = []) ∧
    (arms ≠ [] →
      allocate_arms arms =
        .ok (get_equal_arm_allocations arms (winningSet arms))) := by
  constructor
  · constructor
    · intro herr
      by_contra hne
      rw [allocate_eq hne] at herr
      exact Except.noConfusion herr
    · rintro rfl
      exact allocate_empty
  · exact fun hne => allocate_eq hne

/-- Witness for C3 at a one-arm history. -/
theorem C3_witness :
    allocate_arms [("a", ⟨1, 0, 3⟩)] =
      .ok (get_equal_arm_allocations [("a", ⟨1, 0, 3⟩)]
        (winningSet [("a", ⟨1, 0, 3⟩)])) :=
  (C3_error_iff_empty [("a", ⟨1, 0, 3⟩)]).2 (by simp)

/-- C6: the scoring branch is reached exactly when every arm has
total >= 1, and then the two divisors (the arm total in the average
payoff, the overall count in the confidence term) and the logarithm
argument (the arm total) are all at least 1. -/
theorem C6_no_division_by_zero (arms : ArmsSampled) (hne : arms ≠ []) :
    (unsampledF arms = ∅ ↔ ∀ p ∈ arms, 1 ≤ p.2.total) ∧
    (unsampledF arms = ∅ →
      (∀ p ∈ arms, 1 ≤ p.2.total) ∧
      1 ≤ number_sampled arms ∧
      get_winning_arm_names arms = .ok (scoredW arms)) := by
  refine ⟨unsampledF_eq_empty_iff, fun hu => ?_⟩
  have ht := unsampledF_eq_empty_iff.mp hu
  refine ⟨ht, number_sampled_pos hne ht, ?_⟩
  rw [get_winning_eq hne, winningSet, if_neg (by simp [hu])]

/-- Witness for C6 at a one-arm history with total 1. -/
theorem C6_witness :
    1 ≤ number_sampled [("a", ⟨0, 0, 1⟩)] ∧
    get_winning_arm_names [("a", ⟨0, 0, 1⟩)] =
      .ok (scoredW [("a", ⟨0, 0, 1⟩)]) := by
  have h := (C6_no_division_by_zero [("a", ⟨0, 0, 1⟩)] (by simp)).2 (by rfl)
  exact ⟨h.2.1, h.2.2⟩

/-- C9: for every non-empty mapping, get_winning_arm_names succeeds with a
non-empty set of names drawn from the keys of the mapping. -/
theorem C9_winning_nonempty_subset (arms : ArmsSampled) (hne : arms ≠ []) :
    get_winning_arm_names arms = .ok (winningSet arms) ∧
    (winningSet arms).Nonempty ∧
    winningSet arms ⊆ (arms.map Prod.fst).toFinset :=
  ⟨get_winning_eq hne, winningSet_nonempty hne, winningSet_subset⟩

/-- Witness for C9 at a one-arm history whose arm is unsampled. -/
theorem C9_witness :
    get_winning_arm_names [("a", ⟨0, 0, 0⟩)] =
      .ok (winningSet [("a", ⟨0, 0, 0⟩)]) ∧
    (winningSet [("a", ⟨0, 0, 0⟩)]).Nonempty ∧
    winningSet [("a", ⟨0, 0, 0⟩)] ⊆
      (([("a", ⟨0, 0, 0⟩)] : ArmsSampled).map Prod.fst).toFinset :=
  C9_winning_nonempty_subset [("a", ⟨0, 0, 0⟩)] (by simp)

/-- C2: for every non-empty history with unique arm names containing at
least one unsampled arm, the allocation gives each of the k arms with
total = 0 the probability 1/k and every other arm the probability 0. -/
theorem C2_unsampled_equal_split (arms : ArmsSampled)
    (hne : arms ≠ []) (hnd : (arms.map Prod.fst).Nodup)
    (hex : ∃ p ∈ arms, p.2.total = 0) :
    allocate_arms arms =
      .ok (arms.map (fun p =>
        (p.1,
         if p.2.total = 0
         then 1 / (((arms.filter (fun q => q.2.total == 0)).length : ℝ))
         else 0))) := by
  have hk : unsampledF arms ≠ ∅ := by
    rcases hex with ⟨p, hp, h0⟩
    apply Finset.nonempty_iff_ne_empty.mp
    exact ⟨p.1, mem_unsampledF.mpr ⟨p.2, by rwa [Prod.mk.eta], h0⟩⟩
  rw [allocate_eq hne, alloc_unsampled_shape hnd hk]

/-- Witness for C2 at the spec example with two unsampled arms among
three: the allocation is a half on each unsampled arm, zero on the
sampled one. -/
theorem C2_witness :
    allocate_arms [("a", ⟨0, 0, 0⟩), ("b", ⟨1, 0, 5⟩), ("c", ⟨0, 0, 0⟩)] =
      .ok [("a", 1 / 2), ("b", 0), ("c", 1 / 2)] := by
  have h := C2_unsampled_equal_split
    [("a", ⟨0, 0, 0⟩), ("b", ⟨1, 0, 5⟩), ("c", ⟨0, 0, 0⟩)]
    (by simp) (by simp) ⟨("a", ⟨0, 0, 0⟩), by simp, rfl⟩
  rw [h]
  norm_num

/-- C4: when every arm has total >= 1, get_winning_arm_names returns the
scored winning set; the best payoff is an upper bound of all scores and is
attained, and an arm name is in the winning set exactly when its score
equals the best payoff, so all tied arms are included. -/
theorem C4_winning_set_is_argmax (arms : ArmsSampled) (hne : arms ≠ [])
    (hnd : (arms.map Prod.fst).Nodup)
    (ht : ∀ p ∈ arms, 1 ≤ p.2.total) :
    get_winning_arm_names arms = .ok (scoredW arms) ∧
    (∀ p ∈ arms, ucb_payoff p.2 (number_sampled arms) ≤ best_payoff arms) ∧
    (∃ p ∈ arms, ucb_payoff p.2 (number_sampled arms) = best_payoff arms) ∧
    ∀ name arm, (name, arm) ∈ arms →
      (name ∈ scoredW arms ↔
        ucb_payoff arm (number_sampled arms) = best_payoff arms) := by
  have hu : unsampledF arms = ∅ := unsampledF_eq_empty_iff.mpr ht
  have hwin : get_winning_arm_names arms = .ok (scoredW arms) := by
    rw [get_winning_eq hne, winningSet, if_neg (by simp [hu])]
  refine ⟨hwin, ?_, best_attained hne, ?_⟩
  · intro p hp
    exact ucb_le_best (by rwa [Prod.mk.eta])
  · intro name arm hmem
    exact mem_scoredW_nodup hnd hmem

/-- Witness for C4 at a two-arm history with identical arms (a tie). -/
theorem C4_witness :
    get_winning_arm_names [("a", ⟨1, 0, 2⟩), ("b", ⟨1, 0, 2⟩)] =
      .ok (scoredW [("a", ⟨1, 0, 2⟩), ("b", ⟨1, 0, 2⟩)]) ∧
    (("a" : String) ∈ scoredW [("a", ⟨1, 0, 2⟩), ("b", ⟨1, 0, 2⟩)] ↔
      ucb_payoff ⟨1, 0, 2⟩
          (number_sampled [("a", ⟨1, 0, 2⟩), ("b", ⟨1, 0, 2⟩)]) =
        best_payoff [("a", ⟨1, 0, 2⟩), ("b", ⟨1, 0, 2⟩)]) := by
  have h := C4_winning_set_is_argmax [("a", ⟨1, 0, 2⟩), ("b", ⟨1, 0, 2⟩)]
    (by simp) (by simp)
    (by
      rintro p hp
      rcases List.mem_cons.mp hp with rfl | hp2
      · norm_num
      · rcases List.mem_cons.mp hp2 with rfl | hp3
        · norm_num
        · cases hp3)
  exact ⟨h.1, h.2.2.2 "a" ⟨1, 0, 2⟩ (by simp)⟩

/-- C5: for every non-empty history with unique arm names, allocate_arms
succeeds; the allocation has exactly the arm names of the history as keys
in order, each winning arm carries 1 over the winning-set size, each other
arm carries 0, and the values sum to 1 exactly. -/
theorem C5_allocation_normalized (arms : ArmsSampled) (hne : arms ≠ [])
    (hnd : (arms.map Prod.fst).Nodup) :
    allocate_arms arms =
      .ok (get_equal_arm_allocations arms (winningSet arms)) ∧
    (get_equal_arm_allocations arms (winningSet arms)).map Prod.fst =
      arms.map Prod.fst ∧
    (∀ q ∈ get_equal_arm_allocations arms (winningSet arms),
      q.2 = if q.1 ∈ winningSet arms
            then 1 / ((winningSet arms).card : ℝ) else 0) ∧
    ((get_equal_arm_allocations arms (winningSet arms)).map Prod.snd).sum
      = 1 :=
  ⟨allocate_eq hne, alloc_keys arms _, fun _ hq => alloc_values hq,
    alloc_sum hnd winningSet_subset (winningSet_nonempty hne)⟩

/-- Witness for C5 at a one-arm history. -/
theorem C5_witness :
    allocate_arms [("a", ⟨0, 0, 1⟩)] =
      .ok (get_equal_arm_allocations [("a", ⟨0, 0, 1⟩)]
        (winningSet [("a", ⟨0, 0, 1⟩)])) ∧
    ((get_equal_arm_allocations [("a", ⟨0, 0, 1⟩)]
        (winningSet [("a", ⟨0, 0, 1⟩)])).map Prod.snd).sum = 1 := by
  have h := C5_allocation_normalized [("a", ⟨0, 0, 1⟩)] (by simp) (by simp)
  exact ⟨h.1, h.2.2.2⟩

/-- C7: two arms holding the identical (win, loss, total) snapshot receive
the same allocation probability. -/
theorem C7_identical_arms_equal_allocation (arms : ArmsSampled)
    (hnd : (arms.map Prod.fst).Nodup) (name1 name2 : String)
    (arm : SampleArm) (hm1 : (name1, arm) ∈ arms)
    (hm2 : (name2, arm) ∈ arms) :
    allocate_arms arms =
      .ok (get_equal_arm_allocations arms (winningSet arms)) ∧
    (get_equal_arm_allocations arms (winningSet arms)).lookup name1 =
      (get_equal_arm_allocations arms (winningSet arms)).lookup name2 := by
  have hne : arms ≠ [] := by
    intro hc
    rw [hc] at hm1
    cases hm1
  have hmemiff : name1 ∈ winningSet arms ↔ name2 ∈ winningSet arms := by
    rw [winningSet]
    by_cases hu : unsampledF arms ≠ ∅
    · rw [if_pos hu, mem_unsampledF_nodup hnd hm1,
        mem_unsampledF_nodup hnd hm2]
    · rw [if_neg hu, mem_scoredW_nodup hnd hm1, mem_scoredW_nodup hnd hm2]
  refine ⟨allocate_eq hne, ?_⟩
  rw [alloc_lookup, alloc_lookup]
  have hk1 : name1 ∈ arms.map Prod.fst :=
    List.mem_map.mpr ⟨(name1, arm), hm1, rfl⟩
  have hk2 : name2 ∈ arms.map Prod.fst :=
    List.mem_map.mpr ⟨(name2, arm), hm2, rfl⟩
  rw [if_pos hk1, if_pos hk2]
  by_cases hw : name1 ∈ winningSet arms
  · rw [if_pos hw, if_pos (hmemiff.mp hw)]
  · rw [if_neg hw, if_neg (fun hc => hw (hmemiff.mpr hc))]

/-- Witness for C7 at a two-arm history with identical snapshots. -/
theorem C7_witness :
    (get_equal_arm_allocations [("a", ⟨1, 0, 2⟩), ("b", ⟨1, 0, 2⟩)]
        (winningSet [("a", ⟨1, 0, 2⟩), ("b", ⟨1, 0, 2⟩)])).lookup ("a") =
      (get_equal_arm_allocations [("a", ⟨1, 0, 2⟩), ("b", ⟨1, 0, 2⟩)]
        (winningSet [("a", ⟨1, 0, 2⟩), ("b", ⟨1, 0, 2⟩)])).lookup ("b") :=
  (C7_identical_arms_equal_allocation
    [("a", ⟨1, 0, 2⟩), ("b", ⟨1, 0, 2⟩)] (by simp) "a" "b" ⟨1, 0, 2⟩
    (by simp) (by simp)).2

/-- C8: a history holding exactly one arm with total >= 1 allocates the
whole probability 1 to that arm. -/
theorem C8_single_arm_full_allocation (name : String) (arm : SampleArm)
    (ht : 1 ≤ arm.total) :
    allocate_arms [(name, arm)] = .ok [(name, 1)] := by
  have hne : ([(name, arm)] : ArmsSampled) ≠ [] := by simp
  have hu : unsampledF [(name, arm)] = ∅ :=
    unsampledF_eq_empty_iff.mpr (by
      rintro p hp
      rcases List.mem_cons.mp hp with rfl | hc
      · exact ht
      · cases hc)
  have hsw : winningSet [(name, arm)] = {name} := by
    rw [winningSet, if_neg (by simp [hu])]
    apply Finset.ext
    intro x
    rw [mem_scoredW]
    simp only [Finset.mem_singleton]
    constructor
    · rintro ⟨a, ha, _⟩
      rcases List.mem_cons.mp ha with heq | hc
      · exact congrArg Prod.fst heq
      · cases hc
    · rintro rfl
      exact ⟨arm, List.mem_cons_self _ _, rfl⟩
  rw [allocate_eq hne, hsw, get_equal_arm_allocations]
  simp

/-- Witness for C8 at a concrete one-arm history. -/
theorem C8_witness : allocate_arms [("a", ⟨2, 1, 3⟩)] = .ok [("a", 1)] :=
  C8_single_arm_full_allocation "a" ⟨2, 1, 3⟩ (by norm_num)

/-- C10: allocate_arms is a pure function of the held mapping, and its
result does not depend on the iteration order: on any two reorderings of
the same arm-name to snapshot mapping, either both calls fail with the
empty-history error, or both succeed with allocations that agree on every
arm name. -/
theorem C10_deterministic_order_independent (arms1 arms2 : ArmsSampled)
    (hperm : arms1.Perm arms2) :
    (arms1 = [] →
      allocate_arms arms1 = .error ("sample_arms are empty!") ∧
      allocate_arms arms2 = .error ("sample_arms are empty!")) ∧
    (arms1 ≠ [] →
      allocate_arms arms1 =
        .ok (get_equal_arm_allocations arms1 (winningSet arms1)) ∧
      allocate_arms arms2 =
        .ok (get_equal_arm_allocations arms2 (winningSet arms2)) ∧
      ∀ name,
        (get_equal_arm_allocations arms1 (winningSet arms1)).lookup name =
        (get_equal_arm_allocations arms2 (winningSet arms2)).lookup name) := by
  constructor
  · rintro rfl
    have h2 : arms2 = [] := hperm.symm.eq_nil
    rw [h2]
    exact ⟨allocate_empty, allocate_empty⟩
  · intro hne
    have hne2 : arms2 ≠ [] := by
      intro hc
      rw [hc] at hperm
      exact hne hperm.eq_nil
    refine ⟨allocate_eq hne, allocate_eq hne2, fun name => ?_⟩
    rw [alloc_lookup, alloc_lookup, winningSet_perm hne hperm]
    have hkeys : name ∈ arms1.map Prod.fst ↔ name ∈ arms2.map Prod.fst :=
      (hperm.map Prod.fst).mem_iff
    by_cases hk : name ∈ arms1.map Prod.fst
    · rw [if_pos hk, if_pos (hkeys.mp hk)]
    · rw [if_neg hk, if_neg (fun hc => hk (hkeys.mpr hc))]

/-- Witness for C10 at a two-arm history and its reversal. -/
theorem C10_witness :
    allocate_arms [("a", ⟨0, 0, 1⟩), ("b", ⟨1, 0, 2⟩)] =
      .ok (get_equal_arm_allocations [("a", ⟨0, 0, 1⟩), ("b", ⟨1, 0, 2⟩)]
        (winningSet [("a", ⟨0, 0, 1⟩), ("b", ⟨1, 0, 2⟩)])) ∧
    allocate_arms [("b", ⟨1, 0, 2⟩), ("a", ⟨0, 0, 1⟩)] =
      .ok (get_equal_arm_allocations [("b", ⟨1, 0, 2⟩), ("a", ⟨0, 0, 1⟩)]
        (winningSet [("b", ⟨1, 0, 2⟩), ("a", ⟨0, 0, 1⟩)])) ∧
    (get_equal_arm_allocations [("a", ⟨0, 0, 1⟩), ("b", ⟨1, 0, 2⟩)]
        (winningSet [("a", ⟨0, 0, 1⟩), ("b", ⟨1, 0, 2⟩)])).lookup ("a") =
      (get_equal_arm_allocations [("b", ⟨1, 0, 2⟩), ("a", ⟨0, 0, 1⟩)]
        (winningSet [("b", ⟨1, 0, 2⟩), ("a", ⟨0, 0, 1⟩)])).lookup ("a") := by
  have h := (C10_deterministic_order_independent
    [("a", ⟨0, 0, 1⟩), ("b", ⟨1, 0, 2⟩)]
    [("b", ⟨1, 0, 2⟩), ("a", ⟨0, 0, 1⟩)]
    (List.Perm.swap (("b", ⟨1, 0, 2⟩) : String × SampleArm)
      (("a", ⟨0, 0, 1⟩) : String × SampleArm) [])).2 (by simp)
  exact ⟨h.1, h.2.1, h.2.2 "a"⟩
